import Mathlib

/-!
Shallow embedding of the growable array in `src/lib.rs` (crate `my-vec`).

The Rust code manages a raw heap buffer by hand.  The embedding keeps the
semantically relevant state:

* `RawVec` keeps only the capacity — the pointer carries no logical
  information beyond "an allocation of `cap` slots exists".  `grow` is
  parameterised by the element size (Rust's `mem::size_of::<T>()`) and
  returns `Except String` so that the two abort paths of the source
  (`assert!(size_of::<T>() != 0, "capacity overflow")` and the layout /
  `isize::MAX` check `"allocation too large"`) are explicit.
* `MyVec` keeps the buffer plus the list of initialized elements; the list
  models exactly the occupied prefix `[0, len)` of the buffer, so
  `len = elems.length` and the slice view produced by `Deref` is `elems`.
* `RawValIter` keeps the not-yet-yielded range (`start .. end`) as the list
  of remaining values; `start == end` corresponds to the empty list.
* `MyVecIterator` (from `into_iter`) owns the buffer and a `RawValIter`;
  `MyDrain` borrows the vector and owns a `RawValIter` over the range that
  was occupied when `drain` was called.

Machine widths: a 64-bit host, so `usize::MAX = 2^64 - 1` and
`isize::MAX = 2^63 - 1`.
-/

deriving instance DecidableEq for Except

/-- `usize::MAX` on a 64-bit host. -/
def usizeMax : Nat := 2 ^ 64 - 1

/-- `isize::MAX` on a 64-bit host. -/
def isizeMax : Nat := 2 ^ 63 - 1

/-- Embedding of `struct RawVec<T> { ptr: NonNull<T>, cap: usize }`.
The pointer is semantically irrelevant (the buffer contents beyond the
initialized prefix are uninitialized memory), so only `cap` is kept. -/
structure RawVec where
  cap : Nat
  deriving DecidableEq, Repr

/-- Embedding of `RawVec::new`: capacity `usize::MAX` for a zero-sized
element type, otherwise 0; no allocation happens. -/
def RawVec.new (elemSize : Nat) : RawVec :=
  { cap := if elemSize = 0 then usizeMax else 0 }

/-- Embedding of `RawVec::grow`.  Mirrors the source:
`assert!(mem::size_of::<T>() != 0, "capacity overflow")`; the new capacity
is 1 when `cap == 0` and `2 * cap` otherwise; `Layout::array::<T>(new_cap)`
plus `assert!(new_layout.size() <= isize::MAX as usize, "allocation too
large")` abort unless `elemSize * newCap ≤ isize::MAX`.  Allocator
out-of-memory (`handle_alloc_error`) is a fatal environment failure and is
abstracted away: the model returns the grown buffer whenever the
deterministic checks pass. -/
def RawVec.grow (elemSize : Nat) (rv : RawVec) : Except String RawVec :=
  if elemSize = 0 then Except.error "capacity overflow"
  else
    let newCap := if rv.cap = 0 then 1 else 2 * rv.cap
    if elemSize * newCap ≤ isizeMax then Except.ok { cap := newCap }
    else Except.error "allocation too large"

/-- Embedding of `pub struct MyVec<T> { buf: RawVec<T>, len: usize }`.
`elems` is the list of initialized values in the occupied prefix
`[0, len)`, so the length field of the source is `elems.length`. -/
structure MyVec (α : Type) where
  buf : RawVec
  elems : List α
  deriving DecidableEq, Repr

/-- `MyVec::new`: empty vector over a fresh `RawVec`. -/
def MyVec.new (α : Type) (elemSize : Nat) : MyVec α :=
  { buf := RawVec.new elemSize, elems := [] }

/-- The `len` field of the source: number of initialized elements. -/
def MyVec.len {α : Type} (v : MyVec α) : Nat :=
  v.elems.length

/-- `MyVec::cap`: delegates to the buffer. -/
def MyVec.cap {α : Type} (v : MyVec α) : Nat :=
  v.buf.cap

/-- Embedding of `MyVec::grow`: grow the buffer only when `len == cap`. -/
def MyVec.grow {α : Type} (elemSize : Nat) (v : MyVec α) :
    Except String (MyVec α) :=
  if v.len = v.cap then
    (RawVec.grow elemSize v.buf).map fun b => { buf := b, elems := v.elems }
  else Except.ok v

/-- Embedding of `MyVec::push`: grow if needed, `ptr::write` the element
into slot `len` (append to the initialized prefix), increment `len`. -/
def MyVec.push {α : Type} (elemSize : Nat) (v : MyVec α) (e : α) :
    Except String (MyVec α) :=
  (MyVec.grow elemSize v).map fun w => { buf := w.buf, elems := w.elems ++ [e] }

/-- Embedding of `MyVec::pop`: `None` when `len == 0`, otherwise decrement
`len` and `ptr::read` the slot at the new `len` (the last initialized
element). -/
def MyVec.pop {α : Type} (v : MyVec α) : Option α × MyVec α :=
  if v.len = 0 then (none, v)
  else (v.elems.getLast?, { buf := v.buf, elems := v.elems.dropLast })

/-- Embedding of `MyVec::insert`:
`assert!(idx <= self.len, "index out of bounds")`, grow if needed, shift
the suffix `[idx, len)` right by one (`ptr::copy`), write the element at
`idx`, increment `len`. -/
def MyVec.insert {α : Type} (elemSize : Nat) (v : MyVec α) (idx : Nat)
    (e : α) : Except String (MyVec α) :=
  if idx ≤ v.len then
    (MyVec.grow elemSize v).map fun w =>
      { buf := w.buf, elems := w.elems.take idx ++ e :: w.elems.drop idx }
  else Except.error "index out of bounds"

/-- Embedding of `MyVec::remove`:
`assert!(idx < self.len, "index out of bounds")`, decrement `len`, read the
element at `idx`, shift the suffix `[idx+1, old len)` left by one. -/
def MyVec.remove {α : Type} (v : MyVec α) (idx : Nat) :
    Except String (α × MyVec α) :=
  if h : idx < v.len then
    Except.ok (v.elems.get ⟨idx, h⟩,
      { buf := v.buf, elems := v.elems.take idx ++ v.elems.drop (idx + 1) })
  else Except.error "index out of bounds"

/-- Embedding of `Deref for MyVec`: the slice
`slice::from_raw_parts(self.ptr(), self.len)` is exactly the initialized
prefix. -/
def MyVec.derefSlice {α : Type} (v : MyVec α) : List α :=
  v.elems

/-- Helper: push every element of a list in order (a sequence of `push`
calls, stopping at the first abort). -/
def MyVec.pushAll {α : Type} (elemSize : Nat) :
    MyVec α → List α → Except String (MyVec α)
  | v, [] => Except.ok v
  | v, x :: xs =>
    match MyVec.push elemSize v x with
    | Except.ok w => MyVec.pushAll elemSize w xs
    | Except.error e => Except.error e

/-- Embedding of `struct RawValIter<T> { start: *const T, end: *const T }`:
the pointer pair denotes the not-yet-yielded range, kept as the list of
remaining values.  `start == end` corresponds to the empty list; for a
zero-sized element type the source tracks a count in the same way. -/
structure RawValIter (α : Type) where
  remaining : List α
  deriving DecidableEq, Repr

/-- Embedding of `RawValIter::new(slice)`: the cursor covers the whole
slice. -/
def RawValIter.new {α : Type} (slice : List α) : RawValIter α :=
  { remaining := slice }

/-- Embedding of `RawValIter::next`: `None` when `start == end`, otherwise
read at `start` and advance it. -/
def RawValIter.next {α : Type} (it : RawValIter α) :
    Option α × RawValIter α :=
  if it.remaining.isEmpty then (none, it)
  else (it.remaining.head?, { remaining := it.remaining.tail })

/-- Embedding of `RawValIter::next_back`: `None` when `start == end`,
otherwise move `end` back by one and read there. -/
def RawValIter.nextBack {α : Type} (it : RawValIter α) :
    Option α × RawValIter α :=
  if it.remaining.isEmpty then (none, it)
  else (it.remaining.getLast?, { remaining := it.remaining.dropLast })

/-- An interleaving of `next` (`true`) and `next_back` (`false`) calls:
returns the yielded elements in extraction order and the final iterator
state. -/
def RawValIter.runSteps {α : Type} :
    RawValIter α → List Bool → List α × RawValIter α
  | it, [] => ([], it)
  | it, true :: ds =>
    let s := RawValIter.next it
    let r := RawValIter.runSteps s.2 ds
    (s.1.toList ++ r.1, r.2)
  | it, false :: ds =>
    let s := RawValIter.nextBack it
    let r := RawValIter.runSteps s.2 ds
    (s.1.toList ++ r.1, r.2)

/-- Embedding of `pub struct MyVecIterator<T> { _buf: RawVec<T>, iter:
RawValIter<T> }`, the owning iterator. -/
structure MyVecIterator (α : Type) where
  buf : RawVec
  iter : RawValIter α
  deriving DecidableEq, Repr

/-- Embedding of `IntoIterator for MyVec::into_iter`: build a `RawValIter`
over the current slice, transfer the buffer, forget the source. -/
def MyVec.intoIter {α : Type} (v : MyVec α) : MyVecIterator α :=
  { buf := v.buf, iter := RawValIter.new v.derefSlice }

/-- Embedding of `pub struct MyDrain<'a, T>`: a borrow marker plus a
`RawValIter` over the range occupied at creation time. -/
structure MyDrain (α : Type) where
  iter : RawValIter α
  deriving DecidableEq, Repr

/-- Embedding of `MyVec::drain`: build the cursor over the current slice,
then set `self.len = 0`; the source keeps its buffer. -/
def MyVec.drain {α : Type} (v : MyVec α) : MyDrain α × MyVec α :=
  ({ iter := RawValIter.new v.derefSlice }, { buf := v.buf, elems := [] })

/-- The length/capacity invariant of `MyVec` (spec §3): `0 ≤ len ≤ cap`
(the lower bound is inherent to `Nat`). -/
def MyVec.Inv {α : Type} (v : MyVec α) : Prop :=
  v.len ≤ v.cap

theorem RawVec.grow_ok_cap (elemSize : Nat) (rv rv2 : RawVec)
    (h : RawVec.grow elemSize rv = Except.ok rv2) :
    rv2.cap = if rv.cap = 0 then 1 else 2 * rv.cap := by
  obtain ⟨c⟩ := rv
  obtain ⟨c2⟩ := rv2
  simp only [RawVec.grow] at h
  split at h
  · simp at h
  · split at h <;> split at h <;> simp_all

theorem RawVec.grow_zst (rv : RawVec) :
    RawVec.grow 0 rv = Except.error "capacity overflow" := by
  simp [RawVec.grow]

theorem RawVec.growRaw_error_message (elemSize : Nat) (rv : RawVec) (s : String)
    (h : RawVec.grow elemSize rv = Except.error s) :
    s = "capacity overflow" ∨ s = "allocation too large" := by
  simp only [RawVec.grow] at h
  split at h
  · injection h with h2; exact Or.inl h2.symm
  · split at h <;> split at h
    · simp at h
    · injection h with h2; exact Or.inr h2.symm
    · simp at h
    · injection h with h2; exact Or.inr h2.symm

theorem MyVec.grow_ok {α : Type} (elemSize : Nat) (v w : MyVec α)
    (h : MyVec.grow elemSize v = Except.ok w) :
    w.elems = v.elems ∧ w.buf.cap = w.cap ∧ (v.len ≤ v.cap → v.len < w.cap) := by
  simp only [MyVec.grow] at h
  split at h
  · rename_i hlen
    cases hg : RawVec.grow elemSize v.buf with
    | error e => rw [hg] at h; exact absurd h (by simp [Except.map])
    | ok b =>
      rw [hg] at h
      simp only [Except.map] at h
      injection h with h2
      have hc := RawVec.grow_ok_cap elemSize v.buf b hg
      subst h2
      refine ⟨rfl, rfl, fun _ => ?_⟩
      show v.len < b.cap
      rw [hc, hlen]
      show v.buf.cap < if v.buf.cap = 0 then 1 else 2 * v.buf.cap
      split <;> omega
  · rename_i hlen
    injection h with h2
    subst h2
    exact ⟨rfl, rfl, fun hle => lt_of_le_of_ne hle hlen⟩

theorem MyVec.growVec_error_message {α : Type} (elemSize : Nat) (v : MyVec α)
    (s : String) (h : MyVec.grow elemSize v = Except.error s) :
    s = "capacity overflow" ∨ s = "allocation too large" := by
  simp only [MyVec.grow] at h
  split at h
  · cases hg : RawVec.grow elemSize v.buf with
    | error e =>
      rw [hg] at h
      simp only [Except.map] at h
      injection h with h2
      exact h2 ▸ RawVec.growRaw_error_message elemSize v.buf e hg
    | ok b => rw [hg] at h; exact absurd h (by simp [Except.map])
  · simp at h

theorem MyVec.push_ok {α : Type} (elemSize : Nat) (v w : MyVec α) (e : α)
    (h : MyVec.push elemSize v e = Except.ok w) :
    w.elems = v.elems ++ [e] ∧ (v.Inv → w.Inv) := by
  simp only [MyVec.push] at h
  cases hg : MyVec.grow elemSize v with
  | error s => rw [hg] at h; exact absurd h (by simp [Except.map])
  | ok u =>
    rw [hg] at h
    simp only [Except.map] at h
    injection h with h2
    obtain ⟨he, hcap, hlt⟩ := MyVec.grow_ok elemSize v u hg
    subst h2
    constructor
    · rw [he]
    · intro hinv
      show (u.elems ++ [e]).length ≤ u.buf.cap
      rw [he]
      have hl : v.len = v.elems.length := rfl
      have h3 := hlt hinv
      rw [← hcap] at h3
      simp only [List.length_append, List.length_cons, List.length_nil]
      omega

theorem MyVec.pushAll_ok_elems {α : Type} (elemSize : Nat) (xs : List α) :
    ∀ v w : MyVec α, MyVec.pushAll elemSize v xs = Except.ok w →
      w.elems = v.elems ++ xs := by
  induction xs with
  | nil =>
    intro v w h
    simp only [MyVec.pushAll] at h
    injection h with h2
    subst h2
    simp
  | cons x xs ih =>
    intro v w h
    simp only [MyVec.pushAll] at h
    cases hp : MyVec.push elemSize v x with
    | error s => rw [hp] at h; exact absurd h (by simp)
    | ok u =>
      rw [hp] at h
      have hu := ih u w h
      obtain ⟨he, _⟩ := MyVec.push_ok elemSize v u x hp
      rw [hu, he]
      simp

theorem RawValIter.runSteps_perm {α : Type} (dirs : List Bool) :
    ∀ it : RawValIter α,
      ((RawValIter.runSteps it dirs).1 ++
        (RawValIter.runSteps it dirs).2.remaining).Perm it.remaining := by
  induction dirs with
  | nil => intro it; simp [RawValIter.runSteps]
  | cons d ds ih =>
    intro it
    obtain ⟨rem⟩ := it
    cases rem with
    | nil =>
      cases d with
      | true =>
        have hrun : RawValIter.runSteps (⟨[]⟩ : RawValIter α) (true :: ds) =
            RawValIter.runSteps ⟨[]⟩ ds := by
          simp [RawValIter.runSteps, RawValIter.next]
        rw [hrun]
        exact ih ⟨[]⟩
      | false =>
        have hrun : RawValIter.runSteps (⟨[]⟩ : RawValIter α) (false :: ds) =
            RawValIter.runSteps ⟨[]⟩ ds := by
          simp [RawValIter.runSteps, RawValIter.nextBack]
        rw [hrun]
        exact ih ⟨[]⟩
    | cons x xs =>
      cases d with
      | true =>
        have hrun : RawValIter.runSteps (⟨x :: xs⟩ : RawValIter α)
            (true :: ds) = (x :: (RawValIter.runSteps ⟨xs⟩ ds).1,
              (RawValIter.runSteps ⟨xs⟩ ds).2) := by
          simp [RawValIter.runSteps, RawValIter.next]
        rw [hrun, List.cons_append]
        exact List.Perm.cons x (ih ⟨xs⟩)
      | false =>
        rcases List.eq_nil_or_concat (x :: xs) with hcon | ⟨L, b, hcon⟩
        · simp at hcon
        · rw [hcon]
          have hrun : RawValIter.runSteps (⟨L.concat b⟩ : RawValIter α)
              (false :: ds) = (b :: (RawValIter.runSteps ⟨L⟩ ds).1,
                (RawValIter.runSteps ⟨L⟩ ds).2) := by
            simp [RawValIter.runSteps, RawValIter.nextBack,
              List.getLast?_concat, List.dropLast_concat]
          rw [hrun, List.cons_append]
          have h1 := List.Perm.cons b (ih ⟨L⟩)
          have h2 : ([b] ++ L).Perm (L ++ [b]) := List.perm_append_comm
          have h3 : (L.concat b : List α) = L ++ [b] :=
            List.concat_eq_append L b
          rw [h3]
          exact h1.trans h2

theorem insertIdx_facts {α : Type} (l : List α) (i : Nat) (e : α)
    (h : i ≤ l.length) :
    (l.take i ++ e :: l.drop i).length = l.length + 1 ∧
      (l.take i ++ e :: l.drop i).take i = l.take i ∧
      (l.take i ++ e :: l.drop i).drop (i + 1) = l.drop i ∧
      ∀ hh : i < (l.take i ++ e :: l.drop i).length,
        (l.take i ++ e :: l.drop i).get ⟨i, hh⟩ = e := by
  have hlen : (l.take i).length = i := by
    rw [List.length_take]; omega
  refine ⟨?_, ?_, ?_, ?_⟩
  · simp only [List.length_append, List.length_cons, List.length_drop]
    omega
  · exact List.take_left' hlen
  · have hsplit : l.take i ++ e :: l.drop i =
        (l.take i ++ [e]) ++ l.drop i := by simp
    rw [hsplit]
    refine List.drop_left' ?_
    simp [hlen]
  · intro hh
    have h1 : (l.take i).length ≤ i := le_of_eq hlen
    rw [List.get_eq_getElem, List.getElem_append_right h1]
    simp [hlen]

theorem decidable_inv_aux {α : Type} (v : MyVec α) :
    MyVec.Inv v ↔ v.len ≤ v.cap :=
  Iff.rfl

instance {α : Type} (v : MyVec α) : Decidable (MyVec.Inv v) :=
  decidable_of_iff (v.len ≤ v.cap) (decidable_inv_aux v).symm

theorem RawValIter.runSteps_all_next {α : Type} (l : List α) :
    RawValIter.runSteps ⟨l⟩ (List.replicate l.length true) = (l, ⟨[]⟩) := by
  induction l with
  | nil => simp [RawValIter.runSteps]
  | cons x xs ih =>
    have hrun : RawValIter.runSteps (⟨x :: xs⟩ : RawValIter α)
        (true :: List.replicate xs.length true) =
        (x :: (RawValIter.runSteps ⟨xs⟩ (List.replicate xs.length true)).1,
          (RawValIter.runSteps ⟨xs⟩ (List.replicate xs.length true)).2) := by
      simp [RawValIter.runSteps, RawValIter.next]
    rw [List.length_cons, List.replicate_succ, hrun, ih]

theorem MyVec.pushAll_zst_ok (k : Nat) :
    ∀ v : MyVec Unit, v.cap = usizeMax → v.len + k ≤ usizeMax →
      MyVec.pushAll 0 v (List.replicate k ()) =
        Except.ok { buf := v.buf, elems := v.elems ++ List.replicate k () } := by
  induction k with
  | zero => intro v h1 h2; simp [MyVec.pushAll]
  | succ k ih =>
    intro v h1 h2
    simp only [List.replicate_succ, MyVec.pushAll]
    have hpush : MyVec.push 0 v () =
        Except.ok { buf := v.buf, elems := v.elems ++ [()] } := by
      simp only [MyVec.push, MyVec.grow]
      have hne : ¬ v.len = v.cap := by rw [h1]; omega
      rw [if_neg hne]
      simp [Except.map]
    rw [hpush]
    have hih := ih { buf := v.buf, elems := v.elems ++ [()] }
      (by exact h1)
      (by
        show (v.elems ++ [()]).length + k ≤ usizeMax
        have hv : v.len = v.elems.length := rfl
        simp only [List.length_append, List.length_cons, List.length_nil]
        omega)
    show MyVec.pushAll 0 { buf := v.buf, elems := v.elems ++ [()] }
        (List.replicate k ()) = _
    rw [hih]
    simp

/-- C2: for every sequence of `n` `push` operations starting from
`MyVec::new`, the resulting length equals `n` and the slice view (`Deref`)
contains exactly the pushed values in push order. -/
theorem pushSeq_len_and_slice {α : Type} (elemSize : Nat) (xs : List α)
    (v : MyVec α)
    (h : MyVec.pushAll elemSize (MyVec.new α elemSize) xs = Except.ok v) :
    v.len = xs.length ∧ v.derefSlice = xs := by
  have he := MyVec.pushAll_ok_elems elemSize xs (MyVec.new α elemSize) v h
  simp only [MyVec.new, List.nil_append] at he
  constructor
  · show v.elems.length = xs.length
    rw [he]
  · show v.elems = xs
    exact he

theorem pushSeq_len_and_slice_witness :
    MyVec.pushAll 8 (MyVec.new Nat 8) [4, 5, 6] =
        Except.ok { buf := { cap := 4 }, elems := [4, 5, 6] } ∧
      ({ buf := { cap := 4 }, elems := [4, 5, 6] } : MyVec Nat).len = 3 ∧
      ({ buf := { cap := 4 }, elems := [4, 5, 6] } : MyVec Nat).derefSlice =
        [4, 5, 6] :=
  ⟨by decide, pushSeq_len_and_slice 8 [4, 5, 6]
    { buf := { cap := 4 }, elems := [4, 5, 6] } (by decide)⟩

/-- C5: pushing a value and then immediately popping returns `Some` of
that value and restores the previous length and contents (the capacity may
have grown, which the claim does not constrain). -/
theorem push_then_pop_id {α : Type} (elemSize : Nat) (v w : MyVec α) (e : α)
    (h : MyVec.push elemSize v e = Except.ok w) :
    MyVec.pop w = (some e, { buf := w.buf, elems := v.elems }) ∧
      ({ buf := w.buf, elems := v.elems } : MyVec α).len = v.len ∧
      ({ buf := w.buf, elems := v.elems } : MyVec α).derefSlice =
        v.derefSlice := by
  obtain ⟨he, _⟩ := MyVec.push_ok elemSize v w e h
  refine ⟨?_, rfl, rfl⟩
  have hne : ¬ w.len = 0 := by
    show ¬ w.elems.length = 0
    rw [he]
    simp
  simp only [MyVec.pop, if_neg hne]
  rw [he]
  simp

theorem push_then_pop_id_witness :
    MyVec.push 8 { buf := { cap := 2 }, elems := [3] } (7 : Nat) =
        Except.ok { buf := { cap := 2 }, elems := [3, 7] } ∧
      MyVec.pop { buf := { cap := 2 }, elems := [3, 7] } =
        (some (7 : Nat), { buf := { cap := 2 }, elems := [3] }) ∧
      ({ buf := { cap := 2 }, elems := [3] } : MyVec Nat).len =
        ({ buf := { cap := 2 }, elems := [3] } : MyVec Nat).len ∧
      ({ buf := { cap := 2 }, elems := [3] } : MyVec Nat).derefSlice =
        ({ buf := { cap := 2 }, elems := [3] } : MyVec Nat).derefSlice := by
  have h := push_then_pop_id 8 { buf := { cap := 2 }, elems := [3] }
    { buf := { cap := 2 }, elems := [3, 7] } (7 : Nat) (by decide)
  exact ⟨by decide, h.1, h.2.1, h.2.2⟩

/-- C6: for a non-zero-sized element type, a successful `RawVec::grow`
produces capacity 1 when the current capacity is 0 and exactly twice the
current capacity otherwise. -/
theorem rawVec_grow_doubles (elemSize : Nat) (rv rv2 : RawVec)
    (_hsz : elemSize ≠ 0) (h : RawVec.grow elemSize rv = Except.ok rv2) :
    rv2.cap = if rv.cap = 0 then 1 else 2 * rv.cap :=
  RawVec.grow_ok_cap elemSize rv rv2 h

theorem rawVec_grow_doubles_witness :
    (4 : Nat) ≠ 0 ∧ RawVec.grow 4 { cap := 3 } = Except.ok { cap := 6 } ∧
      ({ cap := 6 } : RawVec).cap =
        if ({ cap := 3 } : RawVec).cap = 0 then 1
        else 2 * ({ cap := 3 } : RawVec).cap :=
  ⟨by decide, by decide,
    rawVec_grow_doubles 4 { cap := 3 } { cap := 6 } (by decide) (by decide)⟩

/-- C4: for `0 ≤ idx ≤ len`, a successful `insert(idx, e)` followed by
`remove(idx)` returns `e` and leaves the array with its pre-insert length
and contents (the buffer capacity may have grown, which the claim does not
constrain). -/
theorem insert_then_remove_id {α : Type} (elemSize : Nat) (v v2 : MyVec α)
    (idx : Nat) (e : α) (hidx : idx ≤ v.len)
    (h : MyVec.insert elemSize v idx e = Except.ok v2) :
    MyVec.remove v2 idx =
        Except.ok (e, { buf := v2.buf, elems := v.elems }) ∧
      ({ buf := v2.buf, elems := v.elems } : MyVec α).len = v.len ∧
      ({ buf := v2.buf, elems := v.elems } : MyVec α).derefSlice =
        v.derefSlice := by
  simp only [MyVec.insert, if_pos hidx] at h
  cases hg : MyVec.grow elemSize v with
  | error s => rw [hg] at h; exact absurd h (by simp [Except.map])
  | ok u =>
    rw [hg] at h
    simp only [Except.map] at h
    injection h with h2
    obtain ⟨he, _, _⟩ := MyVec.grow_ok elemSize v u hg
    subst h2
    rw [he]
    refine ⟨?_, rfl, rfl⟩
    obtain ⟨hlen1, htake, hdrop, hget⟩ := insertIdx_facts v.elems idx e hidx
    simp only [MyVec.remove]
    split
    · rename_i hc
      simp only [Except.ok.injEq, Prod.mk.injEq, MyVec.mk.injEq]
      refine ⟨hget hc, trivial, ?_⟩
      rw [htake, hdrop, List.take_append_drop]
    · rename_i hc
      exfalso
      apply hc
      show idx < (v.elems.take idx ++ e :: v.elems.drop idx).length
      rw [hlen1]
      have hx : idx ≤ v.elems.length := hidx
      omega

theorem insert_then_remove_id_witness :
    (1 : Nat) ≤ ({ buf := { cap := 4 }, elems := [1, 2, 3] } : MyVec Nat).len ∧
      MyVec.insert 4 { buf := { cap := 4 }, elems := [1, 2, 3] } 1 (9 : Nat) =
        Except.ok { buf := { cap := 4 }, elems := [1, 9, 2, 3] } ∧
      MyVec.remove { buf := { cap := 4 }, elems := [1, 9, 2, 3] } 1 =
        Except.ok ((9 : Nat), { buf := { cap := 4 }, elems := [1, 2, 3] }) := by
  have h := insert_then_remove_id 4 { buf := { cap := 4 }, elems := [1, 2, 3] }
    { buf := { cap := 4 }, elems := [1, 9, 2, 3] } 1 (9 : Nat)
    (by decide) (by decide)
  exact ⟨by decide, by decide, h.1⟩

/-- C1: consuming a vector built by pushing `N` elements through the
owning iterator under any interleaving of `next` and `next_back` yields
every one of the `N` elements exactly once, counted with multiplicity (the
yielded values together with the untouched remainder are a permutation of
the pushed list), and once the range is exhausted the yielded values are a
permutation of the pushed list and the total number of `Some` results
equals `N`. -/
theorem intoIter_interleaving {α : Type} (elemSize : Nat) (xs : List α)
    (v : MyVec α) (dirs : List Bool)
    (h : MyVec.pushAll elemSize (MyVec.new α elemSize) xs = Except.ok v) :
    (((MyVec.intoIter v).iter.runSteps dirs).1 ++
        ((MyVec.intoIter v).iter.runSteps dirs).2.remaining).Perm xs ∧
      (((MyVec.intoIter v).iter.runSteps dirs).2.remaining = [] →
        ((MyVec.intoIter v).iter.runSteps dirs).1.Perm xs ∧
          ((MyVec.intoIter v).iter.runSteps dirs).1.length = xs.length) := by
  have he := MyVec.pushAll_ok_elems elemSize xs (MyVec.new α elemSize) v h
  simp only [MyVec.new, List.nil_append] at he
  have hperm := RawValIter.runSteps_perm dirs ((MyVec.intoIter v).iter)
  have hrem : (MyVec.intoIter v).iter.remaining = xs := by
    show v.elems = xs
    exact he
  rw [hrem] at hperm
  refine ⟨hperm, fun hdone => ?_⟩
  rw [hdone, List.append_nil] at hperm
  exact ⟨hperm, hperm.length_eq⟩

theorem intoIter_interleaving_witness :
    MyVec.pushAll 4 (MyVec.new Nat 4) [7, 8, 9] =
        Except.ok { buf := { cap := 4 }, elems := [7, 8, 9] } ∧
      (((MyVec.intoIter { buf := { cap := 4 }, elems := [7, 8, 9] }).iter.runSteps
          [false, true, true, true]).1 ++
        ((MyVec.intoIter { buf := { cap := 4 }, elems := [7, 8, 9] }).iter.runSteps
          [false, true, true, true]).2.remaining).Perm [7, 8, 9] ∧
      ((MyVec.intoIter { buf := { cap := 4 }, elems := [7, 8, 9] }).iter.runSteps
          [false, true, true, true]).1.Perm [7, 8, 9] ∧
      ((MyVec.intoIter { buf := { cap := 4 }, elems := [7, 8, 9] }).iter.runSteps
          [false, true, true, true]).1.length = [7, 8, 9].length := by
  have h := intoIter_interleaving 4 [7, 8, 9]
    { buf := { cap := 4 }, elems := [7, 8, 9] } [false, true, true, true]
    (by decide)
  have h2 := h.2 (by decide)
  exact ⟨by decide, h.1, h2.1, h2.2⟩

/-- C3: `drain` truncates the source length to 0 at call time, before any
element is yielded; the drain cursor covers exactly the range occupied at
creation time; the truncated source keeps its buffer and accepts new
pushes normally (a successful push on it stores exactly the pushed
element, giving length 1). -/
theorem drain_truncates_source {α : Type} (elemSize : Nat) (v : MyVec α) :
    ((MyVec.drain v).2).len = 0 ∧
      ((MyVec.drain v).1).iter.remaining = v.derefSlice ∧
      ((MyVec.drain v).2).cap = v.cap ∧
      ∀ (e : α) (w : MyVec α),
        MyVec.push elemSize ((MyVec.drain v).2) e = Except.ok w →
          w.derefSlice = [e] ∧ w.len = 1 := by
  refine ⟨rfl, rfl, rfl, fun e w h => ?_⟩
  obtain ⟨he, _⟩ := MyVec.push_ok elemSize _ w e h
  constructor
  · show w.elems = [e]
    rw [he]
    rfl
  · show w.elems.length = 1
    rw [he]
    rfl

theorem drain_truncates_source_witness :
    ((MyVec.drain { buf := { cap := 4 }, elems := [5, 6] }).2 : MyVec Nat).len = 0 ∧
      ((MyVec.drain ({ buf := { cap := 4 }, elems := [5, 6] } : MyVec Nat)).1).iter.remaining =
        ({ buf := { cap := 4 }, elems := [5, 6] } : MyVec Nat).derefSlice ∧
      ((MyVec.drain { buf := { cap := 4 }, elems := [5, 6] }).2 : MyVec Nat).cap =
        ({ buf := { cap := 4 }, elems := [5, 6] } : MyVec Nat).cap ∧
      ({ buf := { cap := 4 }, elems := [9] } : MyVec Nat).derefSlice = [9] ∧
      ({ buf := { cap := 4 }, elems := [9] } : MyVec Nat).len = 1 := by
  have h := drain_truncates_source 4
    ({ buf := { cap := 4 }, elems := [5, 6] } : MyVec Nat)
  have h2 := h.2.2.2 9 { buf := { cap := 4 }, elems := [9] } (by decide)
  exact ⟨h.1, h.2.1, h.2.2.1, h2.1, h2.2⟩

/-- C7: for a zero-sized element type the buffer is created with capacity
`usize::MAX` (the representable maximum) and `RawVec::grow` always aborts
for such a type, so a successful push sequence never takes the grow path
and never allocates; pushing `k ≤ usize::MAX` elements succeeds (the
capacity stays `usize::MAX`) and iterating the owning iterator front to
back yields exactly `k` elements, exhausting the range. -/
theorem zst_push_iterate (k : Nat) (hk : k ≤ usizeMax) :
    (MyVec.new Unit 0).cap = usizeMax ∧
      (∀ rv : RawVec, RawVec.grow 0 rv = Except.error "capacity overflow") ∧
      MyVec.pushAll 0 (MyVec.new Unit 0) (List.replicate k ()) =
        Except.ok { buf := { cap := usizeMax }, elems := List.replicate k () } ∧
      ((MyVec.intoIter { buf := { cap := usizeMax }, elems := List.replicate k () }).iter.runSteps (List.replicate k true)).1.length = k ∧
      ((MyVec.intoIter { buf := { cap := usizeMax }, elems := List.replicate k () }).iter.runSteps (List.replicate k true)).2.remaining = [] := by
  have hr := RawValIter.runSteps_all_next (List.replicate k ())
  rw [List.length_replicate] at hr
  refine ⟨rfl, RawVec.grow_zst, ?_, ?_, ?_⟩
  · have hp := MyVec.pushAll_zst_ok k (MyVec.new Unit 0) rfl
      (by
        show (List.length ([] : List Unit)) + k ≤ usizeMax
        simp only [List.length_nil]
        omega)
    rw [hp]
    rfl
  · show (RawValIter.runSteps ⟨List.replicate k ()⟩
        (List.replicate k true)).1.length = k
    rw [hr]
    simp
  · show (RawValIter.runSteps ⟨List.replicate k ()⟩
        (List.replicate k true)).2.remaining = []
    rw [hr]

theorem zst_push_iterate_witness :
    (6 : Nat) ≤ usizeMax ∧
      (MyVec.new Unit 0).cap = usizeMax ∧
      RawVec.grow 0 { cap := 0 } = Except.error "capacity overflow" ∧
      MyVec.pushAll 0 (MyVec.new Unit 0) (List.replicate 6 ()) =
        Except.ok { buf := { cap := usizeMax }, elems := List.replicate 6 () } ∧
      ((MyVec.intoIter { buf := { cap := usizeMax }, elems := List.replicate 6 () }).iter.runSteps (List.replicate 6 true)).1.length = 6 ∧
      ((MyVec.intoIter { buf := { cap := usizeMax }, elems := List.replicate 6 () }).iter.runSteps (List.replicate 6 true)).2.remaining = [] := by
  have h := zst_push_iterate 6 (by decide)
  exact ⟨by decide, h.1, h.2.1 { cap := 0 }, h.2.2.1, h.2.2.2.1, h.2.2.2.2⟩

/-- C8: every public operation (`new`, `push`, `pop`, `insert`, `remove`,
`drain`) preserves `0 ≤ len ≤ cap` (the lower bound is inherent to `Nat`),
and the slice view of initialized values has exactly `len` elements. -/
theorem ops_preserve_invariant (α : Type) (elemSize : Nat) :
    (∀ v : MyVec α, v.derefSlice.length = v.len) ∧
      MyVec.Inv (MyVec.new α elemSize) ∧
      (∀ (v w : MyVec α) (e : α), MyVec.Inv v →
        MyVec.push elemSize v e = Except.ok w → MyVec.Inv w) ∧
      (∀ v : MyVec α, MyVec.Inv v → MyVec.Inv (MyVec.pop v).2) ∧
      (∀ (v w : MyVec α) (idx : Nat) (e : α), MyVec.Inv v →
        MyVec.insert elemSize v idx e = Except.ok w → MyVec.Inv w) ∧
      (∀ (v w : MyVec α) (idx : Nat) (r : α), MyVec.Inv v →
        MyVec.remove v idx = Except.ok (r, w) → MyVec.Inv w) ∧
      (∀ v : MyVec α, MyVec.Inv (MyVec.drain v).2) := by
  refine ⟨fun v => rfl, ?_, ?_, ?_, ?_, ?_, ?_⟩
  · exact Nat.zero_le _
  · intro v w e hinv hp
    exact (MyVec.push_ok elemSize v w e hp).2 hinv
  · intro v hinv
    by_cases h0 : v.len = 0
    · simp only [MyVec.pop, if_pos h0]
      exact hinv
    · simp only [MyVec.pop, if_neg h0]
      show v.elems.dropLast.length ≤ v.buf.cap
      have h1 : v.elems.length ≤ v.buf.cap := hinv
      rw [List.length_dropLast]
      omega
  · intro v w idx e hinv hins
    simp only [MyVec.insert] at hins
    split at hins
    · rename_i hidx
      cases hg : MyVec.grow elemSize v with
      | error s => rw [hg] at hins; exact absurd hins (by simp [Except.map])
      | ok u =>
        rw [hg] at hins
        simp only [Except.map] at hins
        injection hins with h2
        obtain ⟨he, hcap, hlt⟩ := MyVec.grow_ok elemSize v u hg
        subst h2
        show (u.elems.take idx ++ e :: u.elems.drop idx).length ≤ u.buf.cap
        rw [he]
        obtain ⟨hlen1, _, _, _⟩ := insertIdx_facts v.elems idx e hidx
        rw [hlen1]
        have h3 := hlt hinv
        rw [← hcap] at h3
        have h4 : v.len = v.elems.length := rfl
        omega
    · exact absurd hins (by simp)
  · intro v w idx r hinv hrm
    simp only [MyVec.remove] at hrm
    split at hrm
    · injection hrm with h2
      have hw : w = { buf := v.buf, elems := v.elems.take idx ++ v.elems.drop (idx + 1) } := by
        have h5 := congrArg Prod.snd h2
        exact h5.symm
      subst hw
      show (v.elems.take idx ++ v.elems.drop (idx + 1)).length ≤ v.buf.cap
      have h1 : v.elems.length ≤ v.buf.cap := hinv
      simp only [List.length_append, List.length_take, List.length_drop]
      omega
    · exact absurd hrm (by simp)
  · intro v
    show ([] : List α).length ≤ v.buf.cap
    simp

theorem ops_preserve_invariant_witness :
    ({ buf := { cap := 4 }, elems := [1, 2, 3] } : MyVec Nat).derefSlice.length =
        ({ buf := { cap := 4 }, elems := [1, 2, 3] } : MyVec Nat).len ∧
      MyVec.Inv (MyVec.new Nat 4) ∧
      MyVec.Inv ({ buf := { cap := 4 }, elems := [1, 2, 3, 9] } : MyVec Nat) ∧
      MyVec.Inv (MyVec.pop { buf := { cap := 4 }, elems := [1, 2, 3] }).2 ∧
      MyVec.Inv ({ buf := { cap := 4 }, elems := [9, 1, 2, 3] } : MyVec Nat) ∧
      MyVec.Inv ({ buf := { cap := 4 }, elems := [1, 3] } : MyVec Nat) ∧
      MyVec.Inv (MyVec.drain { buf := { cap := 4 }, elems := [1, 2, 3] }).2 := by
  have h := ops_preserve_invariant Nat 4
  refine ⟨h.1 _, h.2.1, ?_, h.2.2.2.1 _ (by decide), ?_, ?_, h.2.2.2.2.2.2 _⟩
  · exact h.2.2.1 { buf := { cap := 4 }, elems := [1, 2, 3] } _ 9
      (by decide) (by decide)
  · exact h.2.2.2.2.1 { buf := { cap := 4 }, elems := [1, 2, 3] } _ 0 9
      (by decide) (by decide)
  · exact h.2.2.2.2.2.1 { buf := { cap := 4 }, elems := [1, 2, 3] }
      { buf := { cap := 4 }, elems := [1, 3] } 1 2 (by decide) (by decide)

/-- C9: `insert` requires `idx ≤ len` and `remove` requires `idx < len`;
outside those bounds the call aborts with the descriptive message "index
out of bounds"; under the precondition that abort branch is unreachable:
`insert` can then only abort through the grow/allocation messages, and
`remove` always succeeds, returning the element at `idx`. -/
theorem bounds_checked_aborts {α : Type} (elemSize : Nat) (v : MyVec α)
    (idx : Nat) (e : α) :
    (v.len < idx →
        MyVec.insert elemSize v idx e = Except.error "index out of bounds") ∧
      (idx ≤ v.len →
        MyVec.insert elemSize v idx e ≠ Except.error "index out of bounds") ∧
      (v.len ≤ idx →
        MyVec.remove v idx = Except.error "index out of bounds") ∧
      ∀ hlt : idx < v.len,
        MyVec.remove v idx = Except.ok (v.elems.get ⟨idx, hlt⟩,
          { buf := v.buf, elems := v.elems.take idx ++ v.elems.drop (idx + 1) }) := by
  refine ⟨?_, ?_, ?_, ?_⟩
  · intro hgt
    simp only [MyVec.insert]
    rw [if_neg (by omega)]
  · intro hle hcontra
    simp only [MyVec.insert, if_pos hle] at hcontra
    cases hg : MyVec.grow elemSize v with
    | error s =>
      rw [hg] at hcontra
      simp only [Except.map] at hcontra
      injection hcontra with h2
      rcases MyVec.growVec_error_message elemSize v s hg with h3 | h3 <;>
        rw [h3] at h2 <;> exact absurd h2 (by decide)
    | ok u =>
      rw [hg] at hcontra
      simp only [Except.map] at hcontra
      exact Except.noConfusion hcontra
  · intro hge
    simp only [MyVec.remove]
    rw [dif_neg (by omega)]
  · intro hlt
    simp only [MyVec.remove, dif_pos hlt]

theorem bounds_checked_aborts_witness :
    MyVec.insert 4 { buf := { cap := 2 }, elems := [5, 6] } 3 (9 : Nat) =
        Except.error "index out of bounds" ∧
      MyVec.insert 4 { buf := { cap := 2 }, elems := [5, 6] } 1 (9 : Nat) ≠
        Except.error "index out of bounds" ∧
      MyVec.remove ({ buf := { cap := 2 }, elems := [5, 6] } : MyVec Nat) 3 =
        Except.error "index out of bounds" ∧
      MyVec.remove ({ buf := { cap := 2 }, elems := [5, 6] } : MyVec Nat) 1 =
        Except.ok ((6 : Nat), { buf := { cap := 2 }, elems := [5] }) := by
  have h3 := bounds_checked_aborts 4
    ({ buf := { cap := 2 }, elems := [5, 6] } : MyVec Nat) 3 (9 : Nat)
  have h1 := bounds_checked_aborts 4
    ({ buf := { cap := 2 }, elems := [5, 6] } : MyVec Nat) 1 (9 : Nat)
  refine ⟨h3.1 (by decide), h1.2.1 (by decide), h3.2.2.1 (by decide), ?_⟩
  exact h1.2.2.2 (by decide)

/-- C10: on an empty vector or an exhausted range, `pop`, `next` and
`next_back` return `none` and leave the state unchanged, while on a
non-empty range they return `some`; all three are total state
transformers with no abort path. -/
theorem empty_ops_return_none (α : Type) :
    (∀ v : MyVec α, v.len = 0 → MyVec.pop v = (none, v)) ∧
      (∀ it : RawValIter α, it.remaining = [] →
        RawValIter.next it = (none, it) ∧
          RawValIter.nextBack it = (none, it)) ∧
      (∀ v : MyVec α, v.len ≠ 0 → (MyVec.pop v).1.isSome = true) ∧
      ∀ it : RawValIter α, it.remaining ≠ [] →
        (RawValIter.next it).1.isSome = true ∧
          (RawValIter.nextBack it).1.isSome = true := by
  refine ⟨?_, ?_, ?_, ?_⟩
  · intro v h0
    simp only [MyVec.pop, if_pos h0]
  · intro it h0
    have hemp : it.remaining.isEmpty = true := by rw [h0]; rfl
    constructor <;>
      simp only [RawValIter.next, RawValIter.nextBack, if_pos hemp]
  · intro v h0
    simp only [MyVec.pop, if_neg h0]
    show v.elems.getLast?.isSome = true
    rw [List.getLast?_isSome]
    intro hnil
    apply h0
    show v.elems.length = 0
    rw [hnil]
    rfl
  · intro it h0
    have hemp : ¬ it.remaining.isEmpty = true := by
      rw [List.isEmpty_iff]
      exact h0
    constructor
    · simp only [RawValIter.next, if_neg hemp]
      show it.remaining.head?.isSome = true
      rw [List.head?_isSome]
      exact h0
    · simp only [RawValIter.nextBack, if_neg hemp]
      show it.remaining.getLast?.isSome = true
      rw [List.getLast?_isSome]
      exact h0

theorem empty_ops_return_none_witness :
    MyVec.pop ({ buf := { cap := 2 }, elems := [] } : MyVec Nat) =
        (none, { buf := { cap := 2 }, elems := [] }) ∧
      RawValIter.next ({ remaining := [] } : RawValIter Nat) =
        (none, { remaining := [] }) ∧
      RawValIter.nextBack ({ remaining := [] } : RawValIter Nat) =
        (none, { remaining := [] }) ∧
      (MyVec.pop ({ buf := { cap := 2 }, elems := [7] } : MyVec Nat)).1.isSome = true ∧
      (RawValIter.next ({ remaining := [7] } : RawValIter Nat)).1.isSome = true ∧
      (RawValIter.nextBack ({ remaining := [7] } : RawValIter Nat)).1.isSome = true := by
  have h := empty_ops_return_none Nat
  have h2 := h.2.1 { remaining := [] } rfl
  have h4 := h.2.2.2 { remaining := [7] } (by decide)
  exact ⟨h.1 _ rfl, h2.1, h2.2, h.2.2.1 _ (by decide), h4.1, h4.2⟩
